import Mathlib

/-!
Shallow embedding of `lru/lru.go` (package lru of darrenli6/groupcache).

The Go `Cache` holds:
  * `MaxEntries int` — capacity, 0 means unlimited;
  * `OnEvicted func(key, value)` — optional callback, nil when unset;
  * `ll *list.List` — doubly linked recency list, front = most recent;
  * `cache map[interface{}]*list.Element` — index from key to list node.

In every reachable state `ll` and `cache` are in 1:1 correspondence (both
are nil before lazy initialization, and every mutation updates both), so we
embed the pair as a single field `ll : Option (List (entry K V))`: `none`
models the uninitialized state (`c.cache == nil`), and `some l` models the
initialized state whose recency list, front first, is `l`; the map lookup
`c.cache[key]` is modelled by `l.find? (keyMatch key)` (the first — and,
by the unique-key invariant, only — node holding `key`).

The callback is modelled by a flag `OnEvicted : Bool` (`true` = a callback
is installed) and every mutating operation returns, besides the new cache,
the list of `(key, value)` pairs the callback was invoked with, in
invocation order; when the flag is `false` the code never calls the
callback, so the returned list is empty.

Go's `int` is modelled by `Int` (no claim under scrutiny exercises 64-bit
overflow); `Key` / `interface{}` values become type parameters `K`, `V`
with decidable equality on `K`, matching Go comparability.
-/

namespace GroupcacheLRU

/-- The Go `entry` struct: one key/value association stored in a list node. -/
structure entry (K V : Type) where
  key : K
  value : V
  deriving DecidableEq, Repr

/-- The Go `Cache` struct (see the module docstring for the field encoding). -/
structure Cache (K V : Type) where
  MaxEntries : Int
  OnEvicted : Bool
  ll : Option (List (entry K V))
  deriving DecidableEq, Repr

variable {K V : Type} [DecidableEq K] [DecidableEq V]

/-- The map-lookup predicate: does this list node hold `key`? -/
def keyMatch (key : K) (e : entry K V) : Bool := decide (e.key = key)

/-- Go `New(maxEntries)`: fresh cache with initialized empty list and map,
no callback installed. -/
def New (K V : Type) (maxEntries : Int) : Cache K V :=
  { MaxEntries := maxEntries, OnEvicted := false, ll := some [] }

/-- Go `(*Cache).removeElement(e)`: unlink node `e` from the list, delete
its key from the map, and invoke `OnEvicted` (if set) with the node's
key/value.  `l` is the current list contents; under the unique-key
invariant erasing the first node holding `e.key` erases exactly `e`. -/
def Cache.removeElement (c : Cache K V) (l : List (entry K V)) (e : entry K V) :
    Cache K V × List (K × V) :=
  ({ c with ll := some (l.eraseP (keyMatch e.key)) },
   if c.OnEvicted then [(e.key, e.value)] else [])

/-- Go `(*Cache).RemoveOldest()`: no-op when uninitialized; otherwise
remove the back (least recently used) node, if any. -/
def Cache.RemoveOldest (c : Cache K V) : Cache K V × List (K × V) :=
  match c.ll with
  | none => (c, [])
  | some l =>
    match l.getLast? with
    | none => (c, [])
    | some e => c.removeElement l e

/-- Go `(*Cache).Add(key, value)`: lazily initialize; on a hit move the
node to the front and overwrite its value in place; on a miss push a new
entry to the front and, when `MaxEntries != 0` and the length now exceeds
it, evict via `RemoveOldest`. -/
def Cache.Add (c : Cache K V) (key : K) (value : V) : Cache K V × List (K × V) :=
  let l := c.ll.getD []
  match l.find? (keyMatch key) with
  | some ee =>
      ({ c with ll := some (⟨ee.key, value⟩ :: l.eraseP (keyMatch key)) }, [])
  | none =>
      let c' := { c with ll := some (⟨key, value⟩ :: l) }
      if c.MaxEntries ≠ 0 ∧ ((l.length : Int) + 1 > c.MaxEntries) then
        c'.RemoveOldest
      else
        (c', [])

/-- Go `(*Cache).Get(key)`: `(none, c)` models `(zero value, false)` with
the cache untouched; a hit moves the node to the front and returns its
value with `ok = true` (modelled by `some`). -/
def Cache.Get (c : Cache K V) (key : K) : Option V × Cache K V :=
  match c.ll with
  | none => (none, c)
  | some l =>
    match l.find? (keyMatch key) with
    | some ele => (some ele.value, { c with ll := some (ele :: l.eraseP (keyMatch key)) })
    | none => (none, c)

/-- Go `(*Cache).Remove(key)`: no-op when uninitialized or key absent,
otherwise `removeElement` on the node the map holds for `key`. -/
def Cache.Remove (c : Cache K V) (key : K) : Cache K V × List (K × V) :=
  match c.ll with
  | none => (c, [])
  | some l =>
    match l.find? (keyMatch key) with
    | some ele => c.removeElement l ele
    | none => (c, [])

/-- Go `(*Cache).Len()`: 0 when uninitialized, else the list length. -/
def Cache.Len (c : Cache K V) : Nat :=
  match c.ll with
  | none => 0
  | some l => l.length

/-- Go `(*Cache).Clear()`: invoke `OnEvicted` (if set) once per resident
entry (Go iterates the map in unspecified order; the model emits them in
list order — every property proved about the emitted events is
order-insensitive), then set both `ll` and `cache` to nil. -/
def Cache.Clear (c : Cache K V) : Cache K V × List (K × V) :=
  ({ MaxEntries := c.MaxEntries, OnEvicted := c.OnEvicted, ll := none },
   if c.OnEvicted then (c.ll.getD []).map (fun e => (e.key, e.value)) else [])

/-- A client call touching a key: `Add` or `Get`. -/
inductive Op (K V : Type) where
  | add (key : K) (value : V)
  | get (key : K)
  deriving DecidableEq, Repr

/-- One client call: its state change and the callback events it emitted
(`Get` never emits any). -/
def Cache.step (c : Cache K V) : Op K V → Cache K V × List (K × V)
  | .add k v => c.Add k v
  | .get k => ((c.Get k).2, [])

/-- Run a sequence of client calls, collecting all callback events. -/
def Cache.run (c : Cache K V) : List (Op K V) → Cache K V × List (K × V)
  | [] => (c, [])
  | op :: rest =>
      let s := c.step op
      let r := s.1.run rest
      (r.1, s.2 ++ r.2)

/-- Run a sequence of `Add` calls (state only). -/
def Cache.runAdds (c : Cache K V) : List (K × V) → Cache K V
  | [] => c
  | kv :: rest => ((c.Add kv.1 kv.2).1).runAdds rest

/-- Does this call touch `key` (an `Add` of it, or a `Get` of it)? -/
def touches (key : K) : Op K V → Bool
  | .add k _ => decide (k = key)
  | .get k => decide (k = key)

/-- Index (position from the front of the call sequence) of the LAST call
that touches `key`, `none` when no call does. -/
def lastTouchIdx : List (Op K V) → K → Option Nat
  | [], _ => none
  | op :: rest, key =>
    match lastTouchIdx rest key with
    | some t => some (t + 1)
    | none => if touches key op then some 0 else none

/-- Recency rank of a key after call sequence `p`: `1 +` its last touch
index, and `0` for a never-touched key, so that later touches compare
strictly greater. -/
def touchRank (p : List (Op K V)) (key : K) : Nat :=
  match lastTouchIdx p key with
  | some t => t + 1
  | none => 0

/-- The resident entries hold pairwise distinct keys (the invariant the Go
map `cache` guarantees in every reachable state). -/
def nodupKeys (l : List (entry K V)) : Prop := (l.map entry.key).Nodup

/-- A key / recency-order invariant tying a cache state to the call history
`p` that produced it: the list is strictly ordered by decreasing recency
rank (front = most recently touched) and every resident key has been
touched at least once. -/
def RecencyInv (p : List (Op K V)) (l : List (entry K V)) : Prop :=
  l.Pairwise (fun a b => touchRank p b.key < touchRank p a.key) ∧
  ∀ a ∈ l, 0 < touchRank p a.key

lemma keyMatch_self (k : K) (v : V) : keyMatch k (entry.mk k v) = true := by
  simp [keyMatch]

lemma key_eq_of_keyMatch {k : K} {e : entry K V} (h : keyMatch k e = true) :
    e.key = k := by
  simpa [keyMatch] using h

lemma keyMatch_eq_false_of_ne {k : K} {e : entry K V} (h : e.key ≠ k) :
    keyMatch k e = false := by
  simp [keyMatch, h]

lemma mem_of_getLast?_eq_some {α : Type} :
    ∀ {l : List α} {e : α}, l.getLast? = some e → e ∈ l
  | [], _, h => by simp at h
  | [a], e, h => by
      rw [List.getLast?_singleton] at h
      injection h with h
      simp [h]
  | a :: b :: t, e, h => by
      rw [List.getLast?_cons_cons] at h
      exact List.mem_cons_of_mem a (mem_of_getLast?_eq_some h)

lemma pairwise_rel_getLast {α : Type} {R : α → α → Prop} {l : List α} {e : α}
    (hp : l.Pairwise R) (h : l.getLast? = some e) : ∀ a ∈ l, a = e ∨ R a e := by
  induction l with
  | nil => simp at h
  | cons a t ih =>
    cases t with
    | nil =>
      rw [List.getLast?_singleton] at h
      injection h with h
      intro x hx
      rw [List.mem_singleton] at hx
      exact Or.inl (hx.trans h)
    | cons b t' =>
      rw [List.getLast?_cons_cons] at h
      intro x hx
      rcases List.mem_cons.mp hx with rfl | hx'
      · exact Or.inr ((List.pairwise_cons.mp hp).1 e (mem_of_getLast?_eq_some h))
      · exact ih (List.pairwise_cons.mp hp).2 h x hx'

lemma eraseP_no_match {l : List (entry K V)} {k : K} (hnd : nodupKeys l) :
    ∀ x ∈ l.eraseP (keyMatch k), keyMatch k x = false := by
  induction l with
  | nil => simp
  | cons a t ih =>
    have hnd₂ := List.nodup_cons.mp hnd
    by_cases ha : keyMatch k a = true
    · rw [List.eraseP_cons_of_pos ha]
      intro x hx
      apply keyMatch_eq_false_of_ne
      intro hxk
      exact hnd₂.1 ((key_eq_of_keyMatch ha) ▸ hxk ▸ List.mem_map_of_mem entry.key hx)
    · rw [List.eraseP_cons_of_neg ha]
      intro x hx
      rcases List.mem_cons.mp hx with rfl | hx'
      · exact Bool.eq_false_iff.mpr ha
      · exact ih hnd₂.2 x hx'

lemma find?_eraseP_self {l : List (entry K V)} {k : K} (hnd : nodupKeys l) :
    (l.eraseP (keyMatch k)).find? (keyMatch k) = none := by
  rw [List.find?_eq_none]
  intro x hx
  simp [eraseP_no_match hnd x hx]

lemma find?_eraseP_ne {l : List (entry K V)} {key k1 : K} (hne : key ≠ k1) :
    (l.eraseP (keyMatch k1)).find? (keyMatch key) = l.find? (keyMatch key) := by
  induction l with
  | nil => rfl
  | cons a t ih =>
    by_cases ha : keyMatch k1 a = true
    · rw [List.eraseP_cons_of_pos ha,
        List.find?_cons_of_neg _
          (by simp [keyMatch_eq_false_of_ne ((key_eq_of_keyMatch ha) ▸ Ne.symm hne)])]
    · rw [List.eraseP_cons_of_neg ha]
      by_cases hk : keyMatch key a = true
      · rw [List.find?_cons_of_pos _ hk, List.find?_cons_of_pos _ hk]
      · rw [List.find?_cons_of_neg _ hk, List.find?_cons_of_neg _ hk]
        exact ih

lemma perm_cons_eraseP_of_find? {l : List (entry K V)} {k : K} {a : entry K V}
    (h : l.find? (keyMatch k) = some a) : l.Perm (a :: l.eraseP (keyMatch k)) := by
  induction l with
  | nil => simp at h
  | cons b t ih =>
    by_cases hb : keyMatch k b = true
    · rw [List.find?_cons_of_pos _ hb] at h
      injection h with h
      rw [← h, List.eraseP_cons_of_pos hb]
    · rw [List.find?_cons_of_neg _ hb] at h
      rw [List.eraseP_cons_of_neg hb]
      exact (List.Perm.cons b (ih h)).trans (List.Perm.swap a b _)

lemma lastTouchIdx_append_single (p : List (Op K V)) (op : Op K V) (key : K) :
    lastTouchIdx (p ++ [op]) key =
      if touches key op then some p.length else lastTouchIdx p key := by
  induction p with
  | nil =>
    by_cases h : touches key op <;> simp [lastTouchIdx, h]
  | cons o p' ih =>
    rw [List.cons_append]
    show (match lastTouchIdx (p' ++ [op]) key with
      | some t => some (t + 1)
      | none => if touches key o then some 0 else none) = _
    rw [ih]
    by_cases h : touches key op
    · simp [h]
    · simp only [h, if_false]
      rfl

lemma lastTouchIdx_lt_length {p : List (Op K V)} {key : K} {t : Nat}
    (h : lastTouchIdx p key = some t) : t < p.length := by
  induction p generalizing t with
  | nil => simp [lastTouchIdx] at h
  | cons o p' ih =>
    rw [lastTouchIdx] at h
    cases hrec : lastTouchIdx p' key with
    | some u =>
      rw [hrec] at h
      injection h with h
      have := ih hrec
      simp only [List.length_cons]
      omega
    | none =>
      rw [hrec] at h
      by_cases ho : touches key o
      · rw [if_pos ho] at h
        injection h with h
        simp only [List.length_cons]
        omega
      · rw [if_neg ho] at h
        cases h

lemma touchRank_of_lastTouchIdx {p : List (Op K V)} {key : K} {t : Nat}
    (h : lastTouchIdx p key = some t) : touchRank p key = t + 1 := by
  unfold touchRank
  rw [h]

lemma touchRank_of_none {p : List (Op K V)} {key : K}
    (h : lastTouchIdx p key = none) : touchRank p key = 0 := by
  unfold touchRank
  rw [h]

lemma touchRank_le (p : List (Op K V)) (key : K) : touchRank p key ≤ p.length := by
  cases h : lastTouchIdx p key with
  | some t =>
    rw [touchRank_of_lastTouchIdx h]
    have := lastTouchIdx_lt_length h
    omega
  | none =>
    rw [touchRank_of_none h]
    omega

lemma touchRank_append_touch {key : K} {op : Op K V} (p : List (Op K V))
    (h : touches key op = true) : touchRank (p ++ [op]) key = p.length + 1 := by
  unfold touchRank
  rw [lastTouchIdx_append_single, if_pos h]

lemma touchRank_append_untouch {key : K} {op : Op K V} (p : List (Op K V))
    (h : touches key op = false) : touchRank (p ++ [op]) key = touchRank p key := by
  unfold touchRank
  rw [lastTouchIdx_append_single, if_neg (by simp [h])]

lemma exists_lastTouchIdx_of_pos {p : List (Op K V)} {key : K}
    (h : 0 < touchRank p key) : ∃ t, lastTouchIdx p key = some t := by
  cases hl : lastTouchIdx p key with
  | some t => exact ⟨t, rfl⟩
  | none => rw [touchRank_of_none hl] at h; omega

lemma touches_unique {key1 key2 : K} {op : Op K V}
    (h1 : touches key1 op = true) (h2 : touches key2 op = true) : key1 = key2 := by
  cases op with
  | add k v =>
    simp only [touches, decide_eq_true_eq] at h1 h2
    rw [← h1, ← h2]
  | get k =>
    simp only [touches, decide_eq_true_eq] at h1 h2
    rw [← h1, ← h2]

lemma recencyInv_nil (p : List (Op K V)) : RecencyInv p ([] : List (entry K V)) :=
  ⟨List.Pairwise.nil, by simp⟩

lemma RecencyInv.erase {p : List (Op K V)} {l : List (entry K V)}
    (h : RecencyInv p l) (q : entry K V → Bool) : RecencyInv p (l.eraseP q) :=
  ⟨List.Pairwise.sublist (List.eraseP_sublist l) h.1,
   fun a ha => h.2 a (List.Sublist.mem ha (List.eraseP_sublist l))⟩

lemma RecencyInv.keys_nodup {p : List (Op K V)} {l : List (entry K V)}
    (h : RecencyInv p l) : nodupKeys l := by
  unfold nodupKeys List.Nodup
  rw [List.pairwise_map]
  exact h.1.imp (fun {a b} hlt heq => absurd hlt (by rw [heq]; omega))

lemma recencyInv_append_untouched {p : List (Op K V)} {l : List (entry K V)}
    (h : RecencyInv p l) (op : Op K V)
    (hu : ∀ a ∈ l, touches a.key op = false) : RecencyInv (p ++ [op]) l := by
  constructor
  · refine h.1.imp_of_mem ?_
    intro a b ha hb hlt
    rw [touchRank_append_untouch p (hu b hb), touchRank_append_untouch p (hu a ha)]
    exact hlt
  · intro a ha
    rw [touchRank_append_untouch p (hu a ha)]
    exact h.2 a ha

lemma recencyInv_front {p : List (Op K V)} {l : List (entry K V)}
    (h : RecencyInv p l) (op : Op K V) (e : entry K V)
    (htouch : touches e.key op = true)
    (hne : ∀ a ∈ l, a.key ≠ e.key) : RecencyInv (p ++ [op]) (e :: l) := by
  have hu : ∀ a ∈ l, touches a.key op = false := by
    intro a ha
    by_cases hh : touches a.key op = true
    · exact absurd (touches_unique hh htouch) (hne a ha)
    · exact Bool.eq_false_iff.mpr hh
  constructor
  · rw [List.pairwise_cons]
    refine ⟨fun b hb => ?_, (recencyInv_append_untouched h op hu).1⟩
    rw [touchRank_append_touch p htouch, touchRank_append_untouch p (hu b hb)]
    have := touchRank_le p b.key
    omega
  · intro a ha
    rcases List.mem_cons.mp ha with rfl | ha'
    · rw [touchRank_append_touch p htouch]
      omega
    · rw [touchRank_append_untouch p (hu a ha')]
      exact h.2 a ha'

lemma recencyInv_add {p : List (Op K V)} {l : List (entry K V)} (c : Cache K V)
    (k : K) (v : V) (hll : c.ll = some l) (h : RecencyInv p l) :
    ∃ l', ((c.Add k v).1).ll = some l' ∧ RecencyInv (p ++ [Op.add k v]) l' := by
  have hfalse : ∀ a ∈ l.eraseP (keyMatch k), a.key ≠ k := by
    intro a ha heq
    have hm := eraseP_no_match h.keys_nodup a ha
    simp [keyMatch, heq] at hm
  simp only [Cache.Add, hll, Option.getD_some]
  cases hf : l.find? (keyMatch k) with
  | some ee =>
    refine ⟨_, rfl, ?_⟩
    have hkey : ee.key = k := key_eq_of_keyMatch (List.find?_some hf)
    apply recencyInv_front (h.erase (keyMatch k)) (Op.add k v) ⟨ee.key, v⟩ ?_ ?_
    · simp [touches, hkey]
    · intro a ha
      simpa [hkey] using hfalse a ha
  | none =>
    have hfront : RecencyInv (p ++ [Op.add k v]) (⟨k, v⟩ :: l) := by
      apply recencyInv_front h (Op.add k v) ⟨k, v⟩ (by simp [touches]) ?_
      intro a ha heq
      exact List.find?_eq_none.mp hf a ha (by simp [keyMatch, heq])
    by_cases hcond : c.MaxEntries ≠ 0 ∧ ((l.length : Int) + 1 > c.MaxEntries)
    · rw [if_pos hcond]
      cases hgl : (entry.mk k v :: l).getLast? with
      | none => simp at hgl
      | some e =>
        refine ⟨_, ?_, hfront.erase (keyMatch e.key)⟩
        simp only [Cache.RemoveOldest, Cache.removeElement, hgl]
    · rw [if_neg hcond]
      exact ⟨_, rfl, hfront⟩

lemma recencyInv_get {p : List (Op K V)} {l : List (entry K V)} (c : Cache K V)
    (k : K) (hll : c.ll = some l) (h : RecencyInv p l) :
    ∃ l', ((c.Get k).2).ll = some l' ∧ RecencyInv (p ++ [Op.get k]) l' := by
  simp only [Cache.Get, hll]
  cases hf : l.find? (keyMatch k) with
  | some ele =>
    refine ⟨_, rfl, ?_⟩
    have hkey : ele.key = k := key_eq_of_keyMatch (List.find?_some hf)
    apply recencyInv_front (h.erase (keyMatch k)) (Op.get k) ele ?_ ?_
    · simp [touches, hkey]
    · intro a ha heq
      have hm := eraseP_no_match h.keys_nodup a ha
      rw [hkey] at heq
      simp [keyMatch, heq] at hm
  | none =>
    refine ⟨l, hll, ?_⟩
    apply recencyInv_append_untouched h
    intro a ha
    have hne : a.key ≠ k :=
      fun heq => List.find?_eq_none.mp hf a ha (by simp [keyMatch, heq])
    simp only [touches, decide_eq_false_iff_not]
    exact fun heq => hne heq.symm

lemma run_append (c : Cache K V) (p q : List (Op K V)) :
    (c.run (p ++ q)).1 = ((c.run p).1.run q).1 := by
  induction p generalizing c with
  | nil => rfl
  | cons o p' ih =>
    rw [List.cons_append]
    show (((c.step o).1.run (p' ++ q)).1) = _
    rw [ih]
    rfl

lemma run_single (c : Cache K V) (op : Op K V) :
    (c.run [op]).1 = (c.step op).1 := rfl

lemma recencyInv_run (C : Int) (b : Bool) (p : List (Op K V)) :
    ∃ l, ((Cache.mk C b (some ([] : List (entry K V)))).run p).1.ll = some l ∧
      RecencyInv p l := by
  induction p using List.reverseRecOn with
  | nil => exact ⟨[], rfl, recencyInv_nil []⟩
  | append_singleton p' op ih =>
    obtain ⟨l, hll, hinv⟩ := ih
    rw [run_append, run_single]
    cases op with
    | add k v => exact recencyInv_add _ k v hll hinv
    | get k => exact recencyInv_get _ k hll hinv

/-- C7: on a zero-valued (uninitialized) cache — `ll = none` models the nil
map and nil list — `Get`, `Len`, `Remove` and `RemoveOldest` are total (the
Lean model terminates with no partiality, mirroring the Go nil-guards that
prevent a panic) and report empty results: `Get` returns the miss value,
`Len` returns 0, and `Remove`/`RemoveOldest` leave the cache unchanged and
invoke no callback. -/
theorem zero_value_safety (m : Int) (b : Bool) (k : K) :
    (Cache.mk m b none : Cache K V).Get k = (none, Cache.mk m b none) ∧
    (Cache.mk m b none : Cache K V).Len = 0 ∧
    (Cache.mk m b none : Cache K V).Remove k = (Cache.mk m b none, []) ∧
    (Cache.mk m b none : Cache K V).RemoveOldest = (Cache.mk m b none, []) :=
  ⟨rfl, rfl, rfl, rfl⟩

/-- C10: `Clear` resets only the internal list/index (both to nil);
`MaxEntries` and `OnEvicted` are unchanged, and an `Add` on the cleared
cache behaves exactly like an `Add` on a lazily re-initialized cache with
the same capacity and callback (so the old capacity is still enforced and
the old callback still fires). -/
theorem clear_frame (c : Cache K V) (k : K) (v : V) :
    (c.Clear).1.MaxEntries = c.MaxEntries ∧
    (c.Clear).1.OnEvicted = c.OnEvicted ∧
    (c.Clear).1.ll = none ∧
    (c.Clear).1.Add k v =
      (Cache.mk c.MaxEntries c.OnEvicted (some ([] : List (entry K V)))).Add k v :=
  ⟨rfl, rfl, rfl, rfl⟩

/-- C3: `Add` on a resident key fires no callback, keeps `Len` unchanged,
moves the key to the front of the recency list with the new value stored in
place, and a subsequent `Get` of the key returns the new value. -/
theorem add_update_semantics (c : Cache K V) (l : List (entry K V))
    (k : K) (v : V) (ee : entry K V)
    (hll : c.ll = some l) (hf : l.find? (keyMatch k) = some ee) :
    (c.Add k v).2 = [] ∧
    (c.Add k v).1.Len = c.Len ∧
    (c.Add k v).1.ll = some (⟨k, v⟩ :: l.eraseP (keyMatch k)) ∧
    ((c.Add k v).1.Get k).1 = some v := by
  have hkey : ee.key = k := key_eq_of_keyMatch (List.find?_some hf)
  have hmem : ee ∈ l := List.mem_of_find?_eq_some hf
  simp only [Cache.Add, hll, Option.getD_some, hf]
  refine ⟨by simp, ?_, ?_, ?_⟩
  · simp only [Cache.Len, hll]
    have := List.length_eraseP_add_one hmem (List.find?_some hf)
    simp only [List.length_cons]
    omega
  · rw [hkey]
  · simp only [Cache.Get]
    rw [List.find?_cons_of_pos _ (by simp [keyMatch, hkey])]

/-- C3 witness: `Add(1,100); Add(1,200); Get 1` yields `(200, true)` with no
callback and unchanged length. -/
theorem add_update_semantics_witness :
    ((((New Nat Nat 10).Add 1 100).1.Add 1 200).2 = [] ∧
     (((New Nat Nat 10).Add 1 100).1.Add 1 200).1.Len =
       ((New Nat Nat 10).Add 1 100).1.Len ∧
     (((New Nat Nat 10).Add 1 100).1.Add 1 200).1.ll =
       some [⟨1, 200⟩] ∧
     ((((New Nat Nat 10).Add 1 100).1.Add 1 200).1.Get 1).1 = some 200) :=
  add_update_semantics (((New Nat Nat 10).Add 1 100).1) [⟨1, 100⟩] 1 200 ⟨1, 100⟩
    (by decide) (by decide)

/-- C4: a `Get` hit returns the stored value together with the cache whose
recency list has the hit node moved to the front (same entries, witnessed
by the permutation); a `Get` miss — on an initialized cache without the
key, or on an uninitialized cache — returns the miss value and the cache
completely unchanged. -/
theorem get_semantics (c : Cache K V) (k : K) :
    (∀ l ele, c.ll = some l → l.find? (keyMatch k) = some ele →
      c.Get k = (some ele.value,
        { c with ll := some (ele :: l.eraseP (keyMatch k)) }) ∧
      (ele :: l.eraseP (keyMatch k)).Perm l) ∧
    (∀ l, c.ll = some l → l.find? (keyMatch k) = none → c.Get k = (none, c)) ∧
    (c.ll = none → c.Get k = (none, c)) := by
  refine ⟨?_, ?_, ?_⟩
  · intro l ele hll hf
    exact ⟨by simp only [Cache.Get, hll, hf], (perm_cons_eraseP_of_find? hf).symm⟩
  · intro l hll hf
    simp only [Cache.Get, hll, hf]
  · intro hnone
    simp only [Cache.Get, hnone]

/-- C4 witness: a hit on key 2 of a two-entry cache returns its value and
moves it to the front; a miss on key 7 leaves the cache unchanged. -/
theorem get_semantics_witness :
    ((Cache.mk 5 false (some [⟨1, 10⟩, ⟨2, 20⟩]) : Cache Nat Nat).Get 2 =
      (some 20, Cache.mk 5 false (some [⟨2, 20⟩, ⟨1, 10⟩])) ∧
     (Cache.mk 5 false (some [⟨1, 10⟩, ⟨2, 20⟩]) : Cache Nat Nat).Get 7 =
      (none, Cache.mk 5 false (some [⟨1, 10⟩, ⟨2, 20⟩]))) :=
  ⟨((get_semantics (Cache.mk 5 false (some [⟨1, 10⟩, ⟨2, 20⟩])) 2).1
      [⟨1, 10⟩, ⟨2, 20⟩] ⟨2, 20⟩ rfl (by decide)).1,
   (get_semantics (Cache.mk 5 false (some [⟨1, 10⟩, ⟨2, 20⟩])) 7).2.1
      [⟨1, 10⟩, ⟨2, 20⟩] rfl (by decide)⟩

/-- C9: with a negative `MaxEntries`, every `Add` of an absent key passes
the capacity check (`MaxEntries != 0` and `len > MaxEntries` both hold) and
calls `RemoveOldest`, so the net length is unchanged; on an empty cache the
entry just added is itself immediately evicted, the callback (if set) fires
with exactly that key/value, and `Len` stays 0. -/
theorem negative_maxEntries (c : Cache K V) (l : List (entry K V)) (k : K) (v : V)
    (hneg : c.MaxEntries < 0) (hll : c.ll = some l)
    (habs : l.find? (keyMatch k) = none) :
    (c.Add k v).1.Len = l.length ∧
    (l = [] → (c.Add k v).1.Len = 0 ∧
      (c.Add k v).2 = (if c.OnEvicted then [(k, v)] else [])) := by
  have hcond : c.MaxEntries ≠ 0 ∧ (((l.length : Int) + 1 > c.MaxEntries)) := by
    constructor
    · omega
    · have : (0 : Int) ≤ (l.length : Int) := Int.natCast_nonneg _
      omega
  constructor
  · simp only [Cache.Add, hll, Option.getD_some, habs]
    rw [if_pos hcond]
    cases hgl : (entry.mk k v :: l).getLast? with
    | none => simp at hgl
    | some e =>
      simp only [Cache.RemoveOldest, Cache.removeElement, hgl, Cache.Len]
      have hmem : e ∈ entry.mk k v :: l := mem_of_getLast?_eq_some hgl
      have := List.length_eraseP_add_one hmem
        (show keyMatch e.key e = true by simp [keyMatch])
      simp only [List.length_cons] at this
      omega
  · intro hl0
    subst hl0
    simp only [Cache.Add, hll, Option.getD_some, habs]
    rw [if_pos hcond]
    simp [Cache.RemoveOldest, Cache.removeElement, Cache.Len, keyMatch]

/-- C9 witness: `Add(1,10)` on an empty cache with `MaxEntries = -1` and a
callback installed evicts the entry just added, leaving `Len = 0` and
firing the callback with `(1, 10)`. -/
theorem negative_maxEntries_witness :
    ((Cache.mk (-1) true (some []) : Cache Nat Nat).Add 1 10).1.Len = 0 ∧
    ((Cache.mk (-1) true (some []) : Cache Nat Nat).Add 1 10).2 = [(1, 10)] := by
  have h := negative_maxEntries (Cache.mk (-1) true (some []) : Cache Nat Nat)
    [] 1 10 (by decide) rfl rfl
  exact ⟨(h.2 rfl).1, by rw [(h.2 rfl).2]; rfl⟩

/-- C5: `Remove` on an uninitialized cache or an absent key is a no-op with
no callback; on a resident key it erases exactly that key, firing the
callback (if set) once with the removed key/value, after which the key is
gone and a second `Remove` of it is a no-op firing no callback. -/
theorem remove_semantics (c : Cache K V) (k : K) :
    (c.ll = none → c.Remove k = (c, [])) ∧
    (∀ l, c.ll = some l → l.find? (keyMatch k) = none → c.Remove k = (c, [])) ∧
    (∀ l ele, c.ll = some l → l.find? (keyMatch k) = some ele → nodupKeys l →
      (c.Remove k).2 = (if c.OnEvicted then [(k, ele.value)] else []) ∧
      (c.Remove k).1.ll = some (l.eraseP (keyMatch k)) ∧
      ((c.Remove k).1.Get k).1 = none ∧
      (c.Remove k).1.Remove k = ((c.Remove k).1, [])) := by
  refine ⟨?_, ?_, ?_⟩
  · intro hnone
    simp only [Cache.Remove, hnone]
  · intro l hll hf
    simp only [Cache.Remove, hll, hf]
  · intro l ele hll hf hnd
    have hkey : ele.key = k := key_eq_of_keyMatch (List.find?_some hf)
    simp only [Cache.Remove, hll, hf, Cache.removeElement, hkey]
    have hnf : (l.eraseP (keyMatch k)).find? (keyMatch k) = none :=
      find?_eraseP_self hnd
    refine ⟨by simp, by simp, ?_, ?_⟩
    · simp only [Cache.Get, hnf]
    · simp only [Cache.Remove, hnf]

/-- C5 witness: removing key 1 from a two-entry cache fires the callback
once with `(1, 10)`, after which `Get 1` misses and a second `Remove 1` is
a no-op with no callback. -/
theorem remove_semantics_witness :
    (((Cache.mk 5 true (some [⟨1, 10⟩, ⟨2, 20⟩]) : Cache Nat Nat).Remove 1).2 =
      [(1, 10)] ∧
     (((Cache.mk 5 true (some [⟨1, 10⟩, ⟨2, 20⟩]) : Cache Nat Nat).Remove 1).1.Get
       1).1 = none ∧
     ((Cache.mk 5 true (some [⟨1, 10⟩, ⟨2, 20⟩]) : Cache Nat Nat).Remove 1).1.Remove
       1 =
      (((Cache.mk 5 true (some [⟨1, 10⟩, ⟨2, 20⟩]) : Cache Nat Nat).Remove 1).1,
        [])) := by
  have h := (remove_semantics (Cache.mk 5 true (some [⟨1, 10⟩, ⟨2, 20⟩]) :
      Cache Nat Nat) 1).2.2 [⟨1, 10⟩, ⟨2, 20⟩] ⟨1, 10⟩ rfl (by decide)
      (by unfold nodupKeys; decide)
  exact ⟨by rw [h.1]; rfl, h.2.2.1, h.2.2.2⟩

/-- C6: after `Clear` the length is 0 and every `Get` misses; when a
callback is installed the emitted events are exactly the resident entries
(one event per entry — each resident key/value pair occurs exactly once in
the event list, in an order the spec leaves open). -/
theorem clear_completeness (c : Cache K V) (l : List (entry K V))
    (hll : c.ll = some l) :
    (c.Clear).1.Len = 0 ∧
    (∀ k : K, ((c.Clear).1.Get k).1 = none) ∧
    (c.OnEvicted = true →
      (c.Clear).2 = l.map (fun e => (e.key, e.value)) ∧
      (nodupKeys l → ((c.Clear).2).Nodup)) := by
  refine ⟨rfl, fun k => rfl, fun hev => ⟨?_, ?_⟩⟩
  · simp only [Cache.Clear, hev, if_true, hll, Option.getD_some]
  · intro hnd
    have hinj : Function.Injective (fun e : entry K V => (e.key, e.value)) := by
      intro e1 e2 hh
      cases e1
      cases e2
      simpa [entry.mk.injEq, Prod.ext_iff] using hh
    have hev2 : (c.Clear).2 = l.map (fun e => (e.key, e.value)) := by
      simp only [Cache.Clear, hev, if_true, hll, Option.getD_some]
    rw [hev2]
    exact (List.Nodup.of_map entry.key hnd).map hinj

/-- C6 witness: clearing a two-entry cache with a callback installed yields
`Len = 0`, misses on both old keys, and exactly one event per old entry. -/
theorem clear_completeness_witness :
    ((Cache.mk 5 true (some [⟨1, 10⟩, ⟨2, 20⟩]) : Cache Nat Nat).Clear).1.Len = 0 ∧
    (((Cache.mk 5 true (some [⟨1, 10⟩, ⟨2, 20⟩]) : Cache Nat Nat).Clear).1.Get
      1).1 = none ∧
    ((Cache.mk 5 true (some [⟨1, 10⟩, ⟨2, 20⟩]) : Cache Nat Nat).Clear).2 =
      [(1, 10), (2, 20)] ∧
    (((Cache.mk 5 true (some [⟨1, 10⟩, ⟨2, 20⟩]) : Cache Nat Nat).Clear).2).Nodup := by
  have h := clear_completeness (Cache.mk 5 true (some [⟨1, 10⟩, ⟨2, 20⟩]) :
      Cache Nat Nat) [⟨1, 10⟩, ⟨2, 20⟩] rfl
  refine ⟨h.1, h.2.1 1, by rw [(h.2.2 rfl).1]; rfl, ?_⟩
  exact (h.2.2 rfl).2 (by unfold nodupKeys; decide)

lemma add_maxzero_absent (c : Cache K V) (l : List (entry K V)) (k : K) (v : V)
    (h0 : c.MaxEntries = 0) (hll : c.ll = some l)
    (habs : l.find? (keyMatch k) = none) :
    c.Add k v = ({ c with ll := some (⟨k, v⟩ :: l) }, []) := by
  simp only [Cache.Add, hll, Option.getD_some, habs]
  rw [if_neg]
  simp [h0]

lemma add_maxzero_no_evict (c : Cache K V) (k : K) (v : V)
    (h0 : c.MaxEntries = 0) : (c.Add k v).2 = [] := by
  simp only [Cache.Add]
  cases hf : (c.ll.getD []).find? (keyMatch k) with
  | some ee => rfl
  | none =>
    rw [if_neg]
    simp [h0]

lemma add_maxzero_find?_other (c : Cache K V) (l : List (entry K V))
    (k1 : K) (v1 : V) (key : K) (h0 : c.MaxEntries = 0) (hll : c.ll = some l)
    (hne : key ≠ k1) :
    ∃ l', (c.Add k1 v1).1.ll = some l' ∧ (c.Add k1 v1).1.MaxEntries = 0 ∧
      l'.find? (keyMatch key) = l.find? (keyMatch key) := by
  simp only [Cache.Add, hll, Option.getD_some]
  cases hf : l.find? (keyMatch k1) with
  | some ee =>
    refine ⟨_, rfl, h0, ?_⟩
    have hkey : ee.key = k1 := key_eq_of_keyMatch (List.find?_some hf)
    rw [List.find?_cons_of_neg _ (by simp [keyMatch, hkey]; exact fun hc => hne hc.symm)]
    exact find?_eraseP_ne hne
  | none =>
    rw [if_neg (by simp [h0])]
    refine ⟨_, rfl, h0, ?_⟩
    rw [List.find?_cons_of_neg _ (by simp [keyMatch]; exact fun hc => hne hc.symm)]

lemma run_adds_maxzero_preserve (pairs : List (K × V)) :
    ∀ (c : Cache K V) (l : List (entry K V)) (key : K) (e : entry K V),
      c.MaxEntries = 0 → c.ll = some l → l.find? (keyMatch key) = some e →
      (∀ q ∈ pairs, q.1 ≠ key) →
      ((c.run (pairs.map fun q => Op.add q.1 q.2)).1.Get key).1 = some e.value := by
  induction pairs with
  | nil =>
    intro c l key e h0 hll hf _
    simp only [List.map_nil, Cache.run, Cache.Get, hll, hf]
  | cons q rest ih =>
    intro c l key e h0 hll hf hne
    obtain ⟨l', hll', h0', hfind⟩ :=
      add_maxzero_find?_other c l q.1 q.2 key h0 hll
        (fun hc => hne q (List.mem_cons_self q rest) hc.symm)
    rw [List.map_cons]
    show (((c.Add q.1 q.2).1.run (rest.map fun q => Op.add q.1 q.2)).1.Get key).1 =
      some e.value
    exact ih (c.Add q.1 q.2).1 l' key e h0' hll' (hfind.trans hf)
      (fun q' hq' => hne q' (List.mem_cons_of_mem q hq'))

lemma run_adds_maxzero (pairs : List (K × V)) :
    ∀ (c : Cache K V) (l : List (entry K V)),
      c.MaxEntries = 0 → c.ll = some l →
      (pairs.map Prod.fst).Nodup →
      (∀ q ∈ pairs, l.find? (keyMatch q.1) = none) →
      (c.run (pairs.map fun q => Op.add q.1 q.2)).2 = [] ∧
      (c.run (pairs.map fun q => Op.add q.1 q.2)).1.Len = l.length + pairs.length ∧
      ∀ q ∈ pairs, ((c.run (pairs.map fun q => Op.add q.1 q.2)).1.Get q.1).1 =
        some q.2 := by
  induction pairs with
  | nil =>
    intro c l h0 hll _ _
    refine ⟨rfl, ?_, by simp⟩
    simp [Cache.run, Cache.Len, hll]
  | cons q rest ih =>
    intro c l h0 hll hnd habs
    have hstep := add_maxzero_absent c l q.1 q.2 h0 hll
      (habs q (List.mem_cons_self q rest))
    rw [List.map_cons] at hnd
    have hnd2 := List.nodup_cons.mp hnd
    have habs2 : ∀ q' ∈ rest, (entry.mk q.1 q.2 :: l).find? (keyMatch q'.1) = none := by
      intro q' hq'
      rw [List.find?_cons_of_neg _ (by
        simp only [keyMatch, decide_eq_true_eq]
        exact fun hc => hnd2.1 (hc ▸ List.mem_map_of_mem Prod.fst hq'))]
      exact habs q' (List.mem_cons_of_mem q hq')
    have hll2 : ({ c with ll := some (⟨q.1, q.2⟩ :: l) } : Cache K V).ll =
        some (⟨q.1, q.2⟩ :: l) := rfl
    obtain ⟨ihev, ihlen, ihres⟩ := ih { c with ll := some (⟨q.1, q.2⟩ :: l) }
      (⟨q.1, q.2⟩ :: l) h0 hll2 hnd2.2 habs2
    rw [List.map_cons]
    refine ⟨?_, ?_, ?_⟩
    · show (c.Add q.1 q.2).2 ++ ((c.Add q.1 q.2).1.run _).2 = []
      rw [hstep]
      simpa using ihev
    · show ((c.Add q.1 q.2).1.run _).1.Len = _
      rw [hstep]
      simp only at ihlen ⊢
      rw [ihlen]
      simp only [List.length_cons]
      omega
    · intro q' hq'
      rcases List.mem_cons.mp hq' with rfl | hq''
      · show (((c.Add q'.1 q'.2).1.run _).1.Get q'.1).1 = some q'.2
        rw [hstep]
        exact run_adds_maxzero_preserve rest _ (⟨q'.1, q'.2⟩ :: l) q'.1 ⟨q'.1, q'.2⟩
          h0 rfl (List.find?_cons_of_pos _ (by simp [keyMatch]))
          (fun q'' hq'' hc => hnd2.1 (hc ▸ List.mem_map_of_mem Prod.fst hq''))
      · show (((c.Add q.1 q.2).1.run _).1.Get q'.1).1 = some q'.2
        rw [hstep]
        exact ihres q' hq''

/-- C8: with `MaxEntries = 0` an `Add` never fires the eviction callback,
and running any sequence of `Add` calls with pairwise distinct, initially
absent keys from such a cache fires no callback at all, grows the length by
exactly the number of added keys, and leaves every added key resident with
its value. -/
theorem unbounded_mode (c : Cache K V) (l : List (entry K V))
    (pairs : List (K × V)) (h0 : c.MaxEntries = 0) (hll : c.ll = some l)
    (hnd : (pairs.map Prod.fst).Nodup)
    (habs : ∀ q ∈ pairs, l.find? (keyMatch q.1) = none) :
    (∀ (k : K) (v : V), (c.Add k v).2 = []) ∧
    (c.run (pairs.map fun q => Op.add q.1 q.2)).2 = [] ∧
    (c.run (pairs.map fun q => Op.add q.1 q.2)).1.Len = l.length + pairs.length ∧
    ∀ q ∈ pairs, ((c.run (pairs.map fun q => Op.add q.1 q.2)).1.Get q.1).1 =
      some q.2 := by
  obtain ⟨hev, hlen, hres⟩ := run_adds_maxzero pairs c l h0 hll hnd habs
  exact ⟨fun k v => add_maxzero_no_evict c k v h0, hev, hlen, hres⟩

/-- C8 witness: adding three distinct keys to an empty unlimited cache with
a callback installed fires no callback, yields `Len = 3`, and all three
keys are resident. -/
theorem unbounded_mode_witness :
    (((Cache.mk 0 true (some []) : Cache Nat Nat).run
        ([(1, 10), (2, 20), (3, 30)].map fun q => Op.add q.1 q.2)).2 = [] ∧
     ((Cache.mk 0 true (some []) : Cache Nat Nat).run
        ([(1, 10), (2, 20), (3, 30)].map fun q => Op.add q.1 q.2)).1.Len = 3 ∧
     (((Cache.mk 0 true (some []) : Cache Nat Nat).run
        ([(1, 10), (2, 20), (3, 30)].map fun q => Op.add q.1 q.2)).1.Get 2).1 =
       some 20) := by
  have h := unbounded_mode (Cache.mk 0 true (some []) : Cache Nat Nat) []
    [(1, 10), (2, 20), (3, 30)] rfl rfl (by decide) (by decide)
  exact ⟨h.2.1, h.2.2.1, h.2.2.2 (2, 20) (by decide)⟩

lemma add_events_length (c : Cache K V) (k : K) (v : V) :
    ((c.Add k v).2).length ≤ 1 := by
  simp only [Cache.Add]
  cases hf : (c.ll.getD []).find? (keyMatch k) with
  | some ee => simp
  | none =>
    by_cases hcond : c.MaxEntries ≠ 0 ∧ (((c.ll.getD []).length : Int) + 1 > c.MaxEntries)
    · rw [if_pos hcond]
      simp only [Cache.RemoveOldest]
      cases hgl : (entry.mk k v :: c.ll.getD []).getLast? with
      | none => simp
      | some e =>
        simp only [Cache.removeElement]
        cases c.OnEvicted <;> simp
    · rw [if_neg hcond]
      simp

lemma add_len_le (c : Cache K V) (l : List (entry K V)) (k : K) (v : V) (C : Int)
    (hC : 0 < C) (hM : c.MaxEntries = C) (hll : c.ll = some l)
    (hlen : (l.length : Int) ≤ C) :
    ∃ l', (c.Add k v).1.ll = some l' ∧ (c.Add k v).1.MaxEntries = C ∧
      ((l'.length : Int)) ≤ C := by
  simp only [Cache.Add, hll, Option.getD_some]
  cases hf : l.find? (keyMatch k) with
  | some ee =>
    refine ⟨_, rfl, hM, ?_⟩
    have := List.length_eraseP_add_one (List.mem_of_find?_eq_some hf)
      (List.find?_some hf)
    simp only [List.length_cons]
    omega
  | none =>
    by_cases hcond : c.MaxEntries ≠ 0 ∧ ((l.length : Int) + 1 > c.MaxEntries)
    · rw [if_pos hcond]
      cases hgl : (entry.mk k v :: l).getLast? with
      | none => simp at hgl
      | some e =>
        simp only [Cache.RemoveOldest, Cache.removeElement, hgl]
        refine ⟨_, rfl, hM, ?_⟩
        have hmem : e ∈ entry.mk k v :: l := mem_of_getLast?_eq_some hgl
        have := List.length_eraseP_add_one hmem
          (show keyMatch e.key e = true by simp [keyMatch])
        simp only [List.length_cons] at this
        omega
    · rw [if_neg hcond]
      refine ⟨_, rfl, hM, ?_⟩
      rw [hM] at hcond
      simp only [List.length_cons]
      push_neg at hcond
      have := hcond (by omega)
      omega

lemma add_len_ge (c : Cache K V) (k : K) (v : V) :
    c.Len ≤ (c.Add k v).1.Len + 1 := by
  cases hll : c.ll with
  | none =>
    simp [Cache.Len, hll]
  | some l =>
    simp only [Cache.Add, hll, Option.getD_some]
    cases hf : l.find? (keyMatch k) with
    | some ee =>
      simp only [Cache.Len, hll, List.length_cons]
      have := List.length_eraseP_add_one (List.mem_of_find?_eq_some hf)
        (List.find?_some hf)
      omega
    | none =>
      by_cases hcond : c.MaxEntries ≠ 0 ∧ ((l.length : Int) + 1 > c.MaxEntries)
      · rw [if_pos hcond]
        cases hgl : (entry.mk k v :: l).getLast? with
        | none => simp at hgl
        | some e =>
          simp only [Cache.RemoveOldest, Cache.removeElement, hgl, Cache.Len, hll]
          have := List.length_eraseP_add_one (mem_of_getLast?_eq_some hgl)
            (show keyMatch e.key e = true by simp [keyMatch])
          simp only [List.length_cons] at this
          omega
      · rw [if_neg hcond]
        simp only [Cache.Len, hll, List.length_cons]
        omega

lemma runAdds_len_le (adds : List (K × V)) :
    ∀ (c : Cache K V) (l : List (entry K V)) (C : Int), 0 < C →
      c.MaxEntries = C → c.ll = some l → (l.length : Int) ≤ C →
      ∃ l', (c.runAdds adds).ll = some l' ∧ ((l'.length : Int)) ≤ C := by
  induction adds with
  | nil =>
    intro c l C _ _ hll hlen
    exact ⟨l, hll, hlen⟩
  | cons q rest ih =>
    intro c l C hC hM hll hlen
    obtain ⟨l', hll', hM', hlen'⟩ := add_len_le c l q.1 q.2 C hC hM hll hlen
    exact ih (c.Add q.1 q.2).1 l' C hC hM' hll' hlen'

/-- C2: from a freshly constructed cache with capacity `C > 0`, any
sequence of `Add` calls leaves `Len ≤ C`; moreover a single `Add` on any
cache removes at most one entry: it fires the eviction callback at most
once and decreases the resident count by at most one (net of the entry it
inserts). -/
theorem capacity_invariant (C : Int) (hC : 0 < C) (adds : List (K × V)) :
    ((((New K V C).runAdds adds).Len : Int)) ≤ C ∧
    (∀ (c : Cache K V) (k : K) (v : V), ((c.Add k v).2).length ≤ 1) ∧
    (∀ (c : Cache K V) (k : K) (v : V), c.Len ≤ (c.Add k v).1.Len + 1) := by
  obtain ⟨l', hll', hlen'⟩ := runAdds_len_le adds (New K V C) [] C hC rfl rfl
    (by simpa using le_of_lt hC)
  refine ⟨?_, fun c k v => add_events_length c k v, fun c k v => add_len_ge c k v⟩
  simp only [Cache.Len, hll']
  exact hlen'

/-- C2 witness: with capacity 1, three successive `Add` calls leave
`Len = 1 ≤ 1`, and the eviction-callback list of a single `Add` never holds
more than one pair. -/
theorem capacity_invariant_witness :
    ((0 : Int) < 1 ∧
     ((((New Nat Nat 1).runAdds [(1, 10), (2, 20), (3, 30)]).Len : Int)) ≤ 1 ∧
     (((Cache.mk 1 true (some [⟨9, 90⟩]) : Cache Nat Nat).Add 5 50).2).length ≤ 1 ∧
     (Cache.mk 1 true (some [⟨9, 90⟩]) : Cache Nat Nat).Len ≤
       ((Cache.mk 1 true (some [⟨9, 90⟩]) : Cache Nat Nat).Add 5 50).1.Len + 1) :=
  ⟨by decide,
   (capacity_invariant 1 (by decide) [(1, 10), (2, 20), (3, 30)]).1,
   (capacity_invariant 1 (by decide) [(1, 10), (2, 20), (3, 30)]).2.1
     (Cache.mk 1 true (some [⟨9, 90⟩])) 5 50,
   (capacity_invariant 1 (by decide) [(1, 10), (2, 20), (3, 30)]).2.2
     (Cache.mk 1 true (some [⟨9, 90⟩])) 5 50⟩

/-- C1: LRU correctness. Run any sequence `p` of `Add`/`Get` calls on a
cache constructed with capacity `C > 0` and a callback installed (so that
evictions are observable as events). If a further `Add k v` fires the
eviction callback with `(ke, ve)` — i.e. an automatic eviction occurred
during an `Add` of an absent key — then the evicted key `ke` was last
touched (by an `Add` or a `Get`) strictly earlier than every other key
resident at the moment of eviction (the just-pushed key `k` together with
the previous residents). -/
theorem lru_correctness (C : Int) (hC : 0 < C) (p : List (Op K V))
    (k ke : K) (v ve : V)
    (hev : ((((Cache.mk C true (some ([] : List (entry K V)))).run p).1).Add k v).2 =
      [(ke, ve)]) :
    ∃ te, lastTouchIdx (p ++ [Op.add k v]) ke = some te ∧
      ∀ l, (((Cache.mk C true (some ([] : List (entry K V)))).run p).1).ll = some l →
        ∀ e ∈ entry.mk k v :: l, e.key ≠ ke →
          ∃ t', lastTouchIdx (p ++ [Op.add k v]) e.key = some t' ∧ te < t' := by
  obtain ⟨l₀, hll, hinv⟩ := recencyInv_run C true p
  set c := ((Cache.mk C true (some ([] : List (entry K V)))).run p).1 with hc
  simp only [Cache.Add, hll, Option.getD_some] at hev
  cases hf : l₀.find? (keyMatch k) with
  | some ee =>
    rw [hf] at hev
    simp at hev
  | none =>
    rw [hf] at hev
    by_cases hcond : c.MaxEntries ≠ 0 ∧ ((l₀.length : Int) + 1 > c.MaxEntries)
    · rw [if_pos hcond] at hev
      simp only [Cache.RemoveOldest] at hev
      cases hgl : (entry.mk k v :: l₀).getLast? with
      | none => simp at hgl
      | some e =>
        rw [hgl] at hev
        simp only [Cache.removeElement] at hev
        cases hOE : c.OnEvicted with
        | false =>
          rw [hOE] at hev
          simp at hev
        | true =>
          rw [hOE] at hev
          simp only [if_true] at hev
          simp only [List.cons.injEq, Prod.mk.injEq] at hev
          have hek : e.key = ke := hev.1.1
          have hfront : RecencyInv (p ++ [Op.add k v]) (entry.mk k v :: l₀) := by
            apply recencyInv_front hinv (Op.add k v) ⟨k, v⟩ (by simp [touches]) ?_
            intro a ha heq
            exact List.find?_eq_none.mp hf a ha (by simp [keyMatch, heq])
          have hemem : e ∈ entry.mk k v :: l₀ := mem_of_getLast?_eq_some hgl
          obtain ⟨te, hte⟩ := exists_lastTouchIdx_of_pos (hfront.2 e hemem)
          refine ⟨te, by rw [← hek]; exact hte, ?_⟩
          intro l hl e' he' hne
          rw [hll] at hl
          injection hl with hl
          subst hl
          rcases pairwise_rel_getLast hfront.1 hgl e' he' with rfl | hlt
          · exact absurd hek hne
          · obtain ⟨t', ht'⟩ := exists_lastTouchIdx_of_pos (hfront.2 e' he')
            refine ⟨t', ht', ?_⟩
            rw [touchRank_of_lastTouchIdx hte, touchRank_of_lastTouchIdx ht'] at hlt
            omega
    · rw [if_neg hcond] at hev
      simp at hev

/-- C1 witness (touch-on-read): with capacity 2 and history
`Add(1,10); Add(2,20); Get 1`, a further `Add(3,30)` evicts key 2, whose
last touch is strictly older than the last touch of every other key
resident at that moment (keys 1 and 3). -/
theorem lru_correctness_witness :
    (((((Cache.mk 2 true (some ([] : List (entry Nat Nat)))).run
        [Op.add 1 10, Op.add 2 20, Op.get 1]).1).Add 3 30).2 = [(2, 20)]) ∧
    (∃ te, lastTouchIdx ([Op.add 1 10, Op.add 2 20, Op.get 1] ++ [Op.add 3 30])
        (2 : Nat) = some te ∧
      ∀ l, ((((Cache.mk 2 true (some ([] : List (entry Nat Nat)))).run
          [Op.add 1 10, Op.add 2 20, Op.get 1]).1).ll = some l) →
        ∀ e ∈ entry.mk 3 30 :: l, e.key ≠ 2 →
          ∃ t', lastTouchIdx ([Op.add 1 10, Op.add 2 20, Op.get 1] ++ [Op.add 3 30])
            e.key = some t' ∧ te < t') :=
  ⟨by decide,
   lru_correctness 2 (by decide) [Op.add 1 10, Op.add 2 20, Op.get 1]
     3 2 30 20 (by decide)⟩

end GroupcacheLRU
